import Mathlib

/-!
Shallow embedding of the meadow orchestration core (planner agent, SQL
decomposer agent, plan-parsing grammar, termination detection) and proofs
about it.

Python strings are modelled as `List Char`.  Python's `xml.etree.ElementTree`
is standard-library code external to the repository; its parser is modelled
as an explicit parameter `fs : Str → Option XElem` (`none` standing for
`ET.ParseError`), while the element data model (`tag`, `text`, children,
`find`) is embedded directly.  Regular-expression operations used by the
sources are embedded as executable functions with the same matching
semantics on the inputs the code feeds them.
-/

/-- Python strings, modelled as lists of characters. -/
abbrev Str := List Char

/-- Convert a Lean string literal to the `Str` model. -/
def toL (s : String) : Str := s.toList

/-- Python `str.isspace` / `str.strip` whitespace class (ASCII part). -/
def isPySpace (c : Char) : Bool :=
  c = ' ' || c = '\t' || c = '\n' || c = '\r' || c = '\x0b' || c = '\x0c'

/-- Drop leading whitespace (left part of Python `str.strip`). -/
def dropLeading (l : Str) : Str := l.dropWhile isPySpace

/-- Drop trailing whitespace (right part of Python `str.strip`). -/
def dropTrailing (l : Str) : Str := (l.reverse.dropWhile isPySpace).reverse

/-- Python `str.strip()`. -/
def stripL (l : Str) : Str := dropTrailing (dropLeading l)

/-- Index of the first occurrence of `pat` as a contiguous substring
(Python `str.find` when it succeeds). -/
def firstIndexOfSub : Str → Str → Option Nat
  | l, pat =>
    if pat.isPrefixOf l then some 0
    else
      match l with
      | [] => none
      | _ :: t => (firstIndexOfSub t pat).map (· + 1)

/-- Python's `pat in s` substring test. -/
def containsSub (l pat : Str) : Bool := (firstIndexOfSub l pat).isSome

/-- Python `s.split(pat, 1)[1]`: everything after the first occurrence of
`pat`.  Only used by the code after checking `pat in s`. -/
def splitAfterFirst (l pat : Str) : Str :=
  match firstIndexOfSub l pat with
  | some i => l.drop (i + pat.length)
  | none => l

/-- Python `s.replace("**", "")`: remove every (left-to-right,
non-overlapping) occurrence of `**`. -/
def removeStars : Str → Str
  | '*' :: '*' :: rest => removeStars rest
  | c :: rest => c :: removeStars rest
  | [] => []

/-- The decimal digit characters, by table (used to model Python's decimal
rendering of `int` keys in the specification-side renderings). -/
def digitCharL : Nat → Char
  | 0 => '0' | 1 => '1' | 2 => '2' | 3 => '3' | 4 => '4'
  | 5 => '5' | 6 => '6' | 7 => '7' | 8 => '8' | _ => '9'

/-- Numeric value of a digit character (Python `int` on a digit). -/
def charVal (c : Char) : Nat := c.toNat - 48

/-- Python `int(ds)` on a nonempty digit string `ds`. -/
def readNat (ds : Str) : Nat := ds.foldl (fun a c => a * 10 + charVal c) 0

/-- Little-endian decimal digits of `n`, with fuel (fuel `n` suffices). -/
def natDigitsRevF : Nat → Nat → Str
  | 0, _ => []
  | fuel + 1, n => if n = 0 then [] else digitCharL (n % 10) :: natDigitsRevF fuel (n / 10)

/-- Decimal rendering of a natural number (Python `str(n)` for `n : int ≥ 0`). -/
def renderNat (n : Nat) : Str :=
  if n = 0 then ['0'] else (natDigitsRevF n n).reverse

/-- `meadow/agent/utils.py`, `has_termination_condition`: the message is
terminal iff its stripped content ends with or starts with the
termination message. -/
def has_termination_condition (content termination_message : Str) : Bool :=
  termination_message.isSuffixOf (stripL content) ||
    termination_message.isPrefixOf (stripL content)

/-- An agent, reduced to what the orchestration core observes: its `name`
and its (nullable) executor list.  Executors are identified by indices into
the decomposer state's attempt-counter table. -/
structure Agent where
  name : Str
  executors : Option (List Nat)
deriving DecidableEq

/-- First-match lookup in an association list (models a Python `dict`
built with distinct keys, as `{a.name: a for a in available_agents}` is in
the configurations the claims quantify over). -/
def lookupA : List (Str × Agent) → Str → Option Agent
  | [], _ => none
  | (k, v) :: t, n => if k = n then some v else lookupA t n

/-- Python list indexing `l[i]` (`none` models `IndexError`). -/
def pyGet {α : Type} (l : List α) (i : Int) : Option α :=
  if 0 ≤ i then l.get? i.toNat
  else if (-i).toNat ≤ l.length then l.get? (l.length - (-i).toNat)
  else none

namespace MeadowPlanner

/-- `xml.etree.ElementTree` element data model: tag, text node, children. -/
structure XElem where
  tag : Str
  text : Option Str
  children : List XElem

/-- ET `Element.find`: first direct child with the given tag, if any. -/
def findChild (e : XElem) (t : Str) : Option XElem :=
  e.children.find? (fun c => decide (c.tag = t))

/-- `meadow/agent/planner.py`, `SubTask` (pydantic model). -/
structure SubTask where
  index : Nat
  agent : Str
  prompt : Str
deriving DecidableEq

/-- Failure modes of `parse_plan` in `planner.py`:
`planNotFound` is the raised `ValueError("Plan not found in the response.")`;
`noneGroup` is the `AttributeError` from `.group(1)` on a failed `re.search`;
`agentFieldNone` is the pydantic validation failure when an `<agent>` element
is present with no text; `instrFieldNone` is the `AttributeError` from
`.strip()` on a present-but-textless `<instruction>` element. -/
inductive PlanErr
  | planNotFound
  | noneGroup
  | agentFieldNone
  | instrFieldNone
deriving DecidableEq

/-- The agent field of one step: text of the `agent` child, or the
sentinel `"Unknown"` when the child is absent (`planner.py` lines 72-74). -/
def stepAgent (step : XElem) : Except PlanErr Str :=
  match findChild step (toL "agent") with
  | some el =>
    match el.text with
    | some a => .ok a
    | none => .error .agentFieldNone
  | none => .ok (toL "Unknown")

/-- The instruction field of one step: stripped text of the `instruction`
child, or the sentinel `"No instruction"` when the child is absent
(`planner.py` lines 75-79). -/
def stepInstruction (step : XElem) : Except PlanErr Str :=
  match findChild step (toL "instruction") with
  | some el =>
    match el.text with
    | some i => .ok (stripL i)
    | none => .error .instrFieldNone
  | none => .ok (toL "No instruction")

/-- The `for step in root` loop of `parse_plan`: appends one `SubTask` per
child, with `index = len(plan)` at append time. -/
def stepsOf : List XElem → List SubTask → Except PlanErr (List SubTask)
  | [], acc => .ok acc
  | step :: rest, acc =>
    match stepAgent step with
    | .error e => .error e
    | .ok a =>
      match stepInstruction step with
      | .error e => .error e
      | .ok i => stepsOf rest (acc ++ [⟨acc.length, a, i⟩])

/-- `pat.isPrefixOf (l.drop j)`: `pat` occurs in `l` starting at `j`. -/
def subAt (l pat : Str) (j : Nat) : Bool := pat.isPrefixOf (l.drop j)

/-- `re.search(r"(<steps>.*</steps>)", message, re.DOTALL)`: leftmost match
starts at the first `<steps>`; the greedy `.*` extends the match to the end
of the last `</steps>` in the string.  `none` models a failed search. -/
def extractEnvelope (message : Str) : Option Str :=
  match firstIndexOfSub message (toL "<steps>") with
  | none => none
  | some i =>
    let t := message.drop i
    match ((List.range (t.length + 1)).filter
        (fun j => 7 ≤ j && subAt t (toL "</steps>") j)).getLast? with
    | none => none
    | some j => some (t.take (j + 8))

/-- `planner.py`, `parse_plan` (lines 53-83).  The XML parser
`ET.fromstring` is the parameter `fs` (`none` = `ET.ParseError`, which the
source catches, logs, and then returns the — still empty — plan). -/
def parse_plan (fs : Str → Option XElem) (message : Str) :
    Except PlanErr (List SubTask) :=
  if containsSub message (toL "<steps>") = false then .error .planNotFound
  else
    match extractEnvelope message with
    | none => .error .noneGroup
    | some inner_steps =>
      match fs inner_steps with
      | none => .ok []
      | some root => stepsOf root.children []

/-- The mutable planner state: `self._plan` and `self._plan_index`
(initialised to `-1` in `__init__`). -/
structure PlannerState where
  plan : List SubTask
  planIndex : Int
deriving DecidableEq

/-- Errors of `PlannerAgent.move_to_next_agent`: the raised
`ValueError("No more agents in the plan.")`, a list `IndexError`, and a
`KeyError` from the available-agents dict lookup. -/
inductive MoveErr
  | noMoreAgents
  | indexErr
  | keyErr
deriving DecidableEq

/-- `planner.py`, `PlannerAgent.move_to_next_agent` (lines 145-154).
The cursor increment happens before the bound check, so even a failing
call leaves the cursor incremented. -/
def move_to_next_agent (agents : List (Str × Agent)) (st : PlannerState) :
    PlannerState × Except MoveErr (Agent × Str) :=
  let idx := st.planIndex + 1
  let st' : PlannerState := { st with planIndex := idx }
  if (st.plan.length : Int) ≤ idx then (st', .error .noMoreAgents)
  else
    match pyGet st.plan idx with
    | none => (st', .error .indexErr)
    | some sub =>
      match lookupA agents sub.agent with
      | none => (st', .error .keyErr)
      | some a => (st', .ok (a, sub.prompt))

/-- Observable outcome of `PlannerAgent.generate_reply`: a reply marked
terminal, a normal reply, or a propagated parse failure. -/
inductive Reply
  | terminal (content : Str)
  | replied (content : Str)
  | raised (e : PlanErr)
deriving DecidableEq

/-- `planner.py`, `PlannerAgent.generate_reply` (lines 193-229), reduced to
its state effect as a function of the backend's output `content`: on a
non-terminal reply the parsed plan is assigned to `self._plan`; note that
the source does not touch `self._plan_index` here. -/
def generate_reply (fs : Str → Option XElem) (termination_message : Str)
    (content : Str) (st : PlannerState) : PlannerState × Reply :=
  if has_termination_condition content termination_message then
    (st, .terminal content)
  else
    match parse_plan fs content with
    | .ok p => ({ st with plan := p }, .replied content)
    | .error e => (st, .raised e)

end MeadowPlanner

namespace MeadowAgent

/-- `meadow/agent/agent.py`, `SubTask`: the agent that must perform the
sub-task plus its prompt. -/
structure SubTask where
  agent : Agent
  prompt : Str
deriving DecidableEq

/-- Modelled from the spec: `ExecutorAgent.reset_execution_attempts` is
declared abstract in `meadow/agent/agent.py` and its implementations are
not under `src/`.  Per the spec (§6), an executor "exposes a no-argument
operation to reset its internal retry/attempt counter"; modelled as
setting that executor's counter in the shared counter table to zero. -/
def reset_execution_attempts (attempts : Nat → Nat) (i : Nat) : Nat → Nat :=
  fun j => if j = i then 0 else attempts j

end MeadowAgent

namespace MeadowDecomposer

/-- `sql_decomposer.py`, `SubTaskForParse` (pydantic model). -/
structure SubTaskForParse where
  agent_name : Str
  prompt : Str
deriving DecidableEq

/-- Opening tag `<instruction\d*>` matched at the head of `l`; returns the
remainder after `>`. -/
def instrOpen (l : Str) : Option Str :=
  if (toL "<instruction").isPrefixOf l then
    match (l.drop 12).dropWhile Char.isDigit with
    | '>' :: rest => some rest
    | _ => none
  else none

/-- Closing tag `</instruction\d*>` matched at the head of `l`; returns
the remainder after `>`. -/
def instrClose (l : Str) : Option Str :=
  if (toL "</instruction").isPrefixOf l then
    match (l.drop 13).dropWhile Char.isDigit with
    | '>' :: rest => some rest
    | _ => none
  else none

/-- Scan forward for the earliest closing tag (the non-greedy `(.*?)`):
returns the captured text before it and the remainder after it. -/
def findInstrClose : Nat → Str → Str → Option (Str × Str)
  | 0, _, _ => none
  | fuel + 1, acc, l =>
    match instrClose l with
    | some rest => some (acc.reverse, rest)
    | none =>
      match l with
      | [] => none
      | c :: t => findInstrClose fuel (c :: acc) t

/-- Left-to-right, non-overlapping scan of
`re.findall(r"<instruction\d*>(.*?)</instruction\d*>", ..., re.DOTALL)`:
at each position try to start a match (opening tag then earliest closing
tag); on failure advance one character. -/
def instrScan : Nat → Str → List Str
  | 0, _ => []
  | fuel + 1, l =>
    match instrOpen l with
    | some afterOpen =>
      match findInstrClose (afterOpen.length + 1) [] afterOpen with
      | some (cap, rest) => cap :: instrScan fuel rest
      | none =>
        match l with
        | [] => []
        | _ :: t => instrScan fuel t
    | none =>
      match l with
      | [] => []
      | _ :: t => instrScan fuel t

/-- `sql_decomposer.py`, `parse_steps_instructions` (lines 67-77): all
tag-pair captures in appearance order, each stripped. -/
def parse_steps_instructions (input_str : Str) : List Str :=
  (instrScan (input_str.length + 1) input_str).map stripL

/-- One separator match of `re.split(r"(\n\d+\.\s+)", text)`: a line
break, one or more digits (greedy), a period, one or more whitespace
characters (greedy).  Returns the matched separator and the remainder. -/
def matchBoundary : Str → Option (Str × Str)
  | [] => none
  | c :: rest =>
    if c = '\n' then
      let ds := rest.takeWhile Char.isDigit
      if ds.isEmpty then none
      else
        match rest.dropWhile Char.isDigit with
        | d :: r2 =>
          if d = '.' then
            let ws := r2.takeWhile isPySpace
            if ws.isEmpty then none
            else some ('\n' :: (ds ++ '.' :: ws), r2.dropWhile isPySpace)
          else none
        | [] => none
    else none

theorem dropWhile_len_le (p : Char → Bool) :
    ∀ l : Str, (l.dropWhile p).length ≤ l.length := by
  intro l
  induction l with
  | nil => simp
  | cons c t ih =>
    by_cases h : p c
    · simpa [List.dropWhile, h] using Nat.le_trans ih (Nat.le_succ _)
    · simp [List.dropWhile, h]

theorem matchBoundary_some_len {l s r : Str}
    (h : matchBoundary l = some (s, r)) : r.length < l.length := by
  match l with
  | [] => simp [matchBoundary] at h
  | c :: rest =>
    simp only [matchBoundary] at h
    split at h
    · split at h
      · exact absurd h (by simp)
      · split at h
        next d r2 heq =>
          split at h
          · split at h
            · exact absurd h (by simp)
            · have hr : r = r2.dropWhile isPySpace := by
                have hc := congrArg (fun x => (Option.map Prod.snd x).getD []) h
                simpa using hc.symm
              have h1 : r.length ≤ r2.length := hr ▸ dropWhile_len_le _ r2
              have h2 : (d :: r2).length ≤ rest.length := heq ▸ dropWhile_len_le _ rest
              simp only [List.length_cons] at h2 ⊢
              omega
          · exact absurd h (by simp)
        next heq => exact absurd h (by simp)
    · exact absurd h (by simp)

/-- `re.split(r"(\n\d+\.\s+)", text)` with the captured separators kept:
walks the text accumulating the current piece (reversed), emitting
`piece :: separator :: …` at each separator match. -/
def reSplitAux : Str → Str → List Str
  | acc, [] => [acc.reverse]
  | acc, c :: rest =>
    match h : matchBoundary (c :: rest) with
    | some (sep, r) => acc.reverse :: sep :: reSplitAux [] r
    | none => reSplitAux (c :: acc) rest
termination_by _ l => l.length
decreasing_by
  · exact matchBoundary_some_len h
  · simp

/-- Failure modes of `parse_steps_numbers`: the raised
`ValueError("The instructions does not contain any steps. ...")` and the
`assert cur_num is not None` failure. -/
inductive NumErr
  | noStepsFound
  | assertionFailed
deriving DecidableEq

/-- Python dict assignment `instructions[k] = v`: overwrite in place if the
key is present, else append (insertion order preserved). -/
def upsert : List (Nat × Str) → Nat → Str → List (Nat × Str)
  | [], k, v => [(k, v)]
  | (k', v') :: t, k, v =>
    if k' = k then (k', v) :: t else (k', v') :: upsert t k v

/-- Dict read `instructions[k]` for a key known to be present. -/
def lookupD : List (Nat × Str) → Nat → Str
  | [], _ => []
  | (k', v) :: t, k => if k' = k then v else lookupD t k

/-- The piece loop of `parse_steps_numbers` (lines 97-113): a piece whose
stripped form starts with digits followed by a period updates `cur_num`;
any other piece is recorded under `cur_num` (stripped, with `**` removed),
failing the `assert` if no number has been seen yet. -/
def stepsLoop : List Str → Option Nat → List (Nat × Str) →
    Except NumErr (List (Nat × Str))
  | [], _, ins => .ok ins
  | piece :: rest, cur, ins =>
    let p := stripL piece
    let ds := p.takeWhile Char.isDigit
    if ds ≠ [] ∧ (p.dropWhile Char.isDigit).head? = some '.' then
      stepsLoop rest (some (readNat ds)) ins
    else
      match cur with
      | none => .error .assertionFailed
      | some k => stepsLoop rest cur (upsert ins k (removeStars (stripL p)))

/-- `[instructions[i] for i in sorted(instructions.keys())]`. -/
def emitSorted (ins : List (Nat × Str)) : List Str :=
  (List.insertionSort (fun a b => a ≤ b) (ins.map Prod.fst)).map
    (fun k => lookupD ins k)

/-- `sql_decomposer.py`, `parse_steps_numbers` (lines 80-114). -/
def parse_steps_numbers (input_str : Str) : Except NumErr (List Str) :=
  if containsSub input_str (toL "1. ") = false then .error .noStepsFound
  else
    let text := toL "\n1. " ++ splitAfterFirst input_str (toL "1. ")
    let pieces := ((reSplitAux [] text).map stripL).filter (fun p => !p.isEmpty)
    match stepsLoop pieces none [] with
    | .ok ins => .ok (emitSorted ins)
    | .error e => .error e

/-- `sql_decomposer.py`, `parse_plan` (lines 117-137), reduced to the list
of parsed sub-tasks (the source serialises this list to JSON inside an
`AgentMessage` and `generate_reply` immediately deserialises it back; that
round trip is the identity on the list). -/
def parse_plan (message : Str) : Except NumErr (List SubTaskForParse) :=
  if containsSub message (toL "<instruction") then
    .ok ((parse_steps_instructions message).map
      (fun i => ⟨toL "SQLGenerator", i⟩))
  else
    match parse_steps_numbers message with
    | .ok l => .ok (l.map (fun i => ⟨toL "SQLGenerator", i⟩))
    | .error e => .error e

/-- Decomposer state: the consume-once queue `self._plan` (front at the
head) and the executor attempt-counter table the reset side effect acts
on. -/
structure DecompState where
  plan : List MeadowAgent.SubTask
  attempts : Nat → Nat

/-- `sql_decomposer.py`, `SQLDecomposerAgent.move_to_next_agent`
(lines 204-215): `None` on an empty queue; otherwise pop the front
sub-task and, when its agent's executor list is truthy, reset every one of
those executors' attempt counters. -/
def move_to_next_agent (st : DecompState) :
    Option MeadowAgent.SubTask × DecompState :=
  match st.plan with
  | [] => (none, st)
  | subtask :: rest =>
    let attempts' :=
      match subtask.agent.executors with
      | some exs =>
        if exs.isEmpty then st.attempts
        else exs.foldl (fun f i => MeadowAgent.reset_execution_attempts f i)
          st.attempts
      | none => st.attempts
    (some subtask, { plan := rest, attempts := attempts' })

/-- Failures of `SQLDecomposerAgent.generate_reply`: a re-raised parse
failure, a `KeyError` on an unknown agent name while enqueuing, the
`ValueError("No LLM client provided and more than one agent.")`, and the
`IndexError` of `list(...)[0]` on an empty available-agents dict. -/
inductive DErr
  | parseFail (e : NumErr)
  | keyErr
  | valueErrMultiAgents
  | indexErrNoAgents
deriving DecidableEq

/-- Observable outcome of `SQLDecomposerAgent.generate_reply`. -/
inductive DReply
  | terminal (content : Str)
  | replied (content : Str)
  | raised (e : DErr)
deriving DecidableEq

/-- The `for sub_task in parsed_plan: self._plan.put(...)` loop: enqueues
sub-tasks in order, resolving each agent name against the available-agents
dict; a failed lookup raises after the earlier sub-tasks were already
enqueued. -/
def putLoop (agentsMap : List (Str × Agent)) :
    List SubTaskForParse → List MeadowAgent.SubTask →
    List MeadowAgent.SubTask × Option DErr
  | [], plan => (plan, none)
  | p :: rest, plan =>
    match lookupA agentsMap p.agent_name with
    | none => (plan, some .keyErr)
    | some a => putLoop agentsMap rest (plan ++ [⟨a, p.prompt⟩])

/-- Modelled from the spec: `Commands.has_end` lives in
`meadow/agent/schema.py`, which is not under `src/`.  Per the spec (§4.5,
§4.6) the decomposer "detects termination exactly as in §4.4" against an
agent-specific end marker: trimmed content starting or ending with the
marker. -/
def commandsHasEnd (end_marker content : Str) : Bool :=
  has_termination_condition content end_marker

/-- `sql_decomposer.py`, `SQLDecomposerAgent.generate_reply`, backend
branch (lines 255-316), as a function of the backend output `content` and
the last received message's content: termination check, parse, single-step
collapse (`parsed_plan[0].prompt = messages[-1].content`), enqueue. -/
def generate_reply_llm (end_marker : Str) (agentsMap : List (Str × Agent))
    (content last_message : Str) (st : DecompState) : DecompState × DReply :=
  if commandsHasEnd end_marker content then (st, .terminal content)
  else
    match parse_plan content with
    | .error e => (st, .raised (.parseFail e))
    | .ok parsed0 =>
      let parsed_plan :=
        match parsed0 with
        | [p] => [SubTaskForParse.mk p.agent_name last_message]
        | l => l
      match putLoop agentsMap parsed_plan st.plan with
      | (plan', none) => ({ st with plan := plan' }, .replied content)
      | (plan', some e) => ({ st with plan := plan' }, .raised e)

/-- `sql_decomposer.py`, `SQLDecomposerAgent.generate_reply`, no-backend
branch (lines 317-328): fatal if more than one available agent; otherwise
the single agent gets the last message verbatim as one enqueued sub-task,
acknowledged by a serialized one-step plan. -/
def generate_reply_no_llm (agentsMap : List (Str × Agent))
    (last_message : Str) (st : DecompState) : DecompState × DReply :=
  if 1 < agentsMap.length then (st, .raised .valueErrMultiAgents)
  else
    match agentsMap with
    | [] => (st, .raised .indexErrNoAgents)
    | (_, a) :: _ =>
      ({ st with plan := st.plan ++ [⟨a, last_message⟩] },
        .replied (toL "<steps><step1><agent>" ++ a.name ++
          toL "</agent><instruction>" ++ last_message ++
          toL "</instruction></step1></steps>"))

end MeadowDecomposer

/-! ## General lemmas about the string utilities -/

theorem firstIndexOfSub_none_all {l pat : Str}
    (h : firstIndexOfSub l pat = none) :
    ∀ m, pat.isPrefixOf (l.drop m) = false := by
  intro m
  induction l generalizing m with
  | nil =>
    rw [firstIndexOfSub] at h
    cases hp : pat.isPrefixOf ([] : Str) with
    | true => simp [hp] at h
    | false => simpa using hp
  | cons c t ih =>
    rw [firstIndexOfSub] at h
    cases hp : pat.isPrefixOf (c :: t) with
    | true => simp [hp] at h
    | false =>
      simp only [hp, if_false, Bool.false_eq_true] at h
      cases m with
      | zero => simpa using hp
      | succ m' =>
        have ht : firstIndexOfSub t pat = none := by
          cases hft : firstIndexOfSub t pat with
          | none => rfl
          | some k => simp [hft] at h
        simpa using ih ht m'

theorem firstIndexOfSub_of_isPrefixOf {l pat : Str}
    (h : pat.isPrefixOf l = true) : firstIndexOfSub l pat = some 0 := by
  cases l with
  | nil => rw [firstIndexOfSub]; simp [h]
  | cons c t => rw [firstIndexOfSub]; simp [h]

theorem containsSub_of_extract {message env : Str}
    (h : MeadowPlanner.extractEnvelope message = some env) :
    containsSub message (toL "<steps>") = true := by
  rw [MeadowPlanner.extractEnvelope] at h
  rw [containsSub]
  cases hf : firstIndexOfSub message (toL "<steps>") with
  | none => rw [hf] at h; exact absurd h (by simp)
  | some i => simp

/-! ## C7: termination detection -/

/-- C7, counterexample to the claim as stated: the claim's "content exactly
equal to the sentinel is terminal" fails for a sentinel carrying
surrounding whitespace — with content and sentinel both `" x "`, the
trimmed content `"x"` neither starts nor ends with the sentinel `" x "`,
so detection reports false. -/
theorem c7_counterexample :
    has_termination_condition (toL " x ") (toL " x ") = false := by decide

/-- C7, amended: for every content string and sentinel token, termination
detection returns true iff the whitespace-trimmed content starts with the
sentinel or ends with it (so a sentinel occurring only strictly in the
interior is not terminal); content exactly equal to the sentinel is
terminal provided the sentinel is trim-invariant (no surrounding
whitespace), the condition the counterexample forces. -/
theorem c7_termination_detection :
    ∀ content sentinel : Str,
      (has_termination_condition content sentinel = true ↔
        (sentinel.isPrefixOf (stripL content) = true ∨
          sentinel.isSuffixOf (stripL content) = true)) ∧
      (sentinel.isPrefixOf (stripL content) = false →
        sentinel.isSuffixOf (stripL content) = false →
        has_termination_condition content sentinel = false) ∧
      (stripL sentinel = sentinel →
        has_termination_condition sentinel sentinel = true) := by
  intro content sentinel
  refine ⟨?_, ?_, ?_⟩
  · rw [has_termination_condition]
    constructor
    · intro h
      rcases Bool.or_eq_true_iff.mp h with h' | h'
      · exact Or.inr h'
      · exact Or.inl h'
    · intro h
      rcases h with h' | h' <;> simp [h']
  · intro h1 h2
    simp [has_termination_condition, h1, h2]
  · intro h
    rw [has_termination_condition, h]
    have : sentinel.isSuffixOf sentinel = true := by
      induction sentinel with
      | nil => rfl
      | cons c t _ =>
        exact (List.isSuffixOf_iff_suffix).mpr (List.suffix_refl _)
    simp [this]

/-- C7 witness: the planner's default sentinel content is detected. -/
theorem c7_witness :
    has_termination_condition (toL "<exit>") (toL "<exit>") = true :=
  (c7_termination_detection (toL "<exit>") (toL "<exit>")).2.2 (by decide)

/-! ## C4 and C10: planner parse_plan failure modes -/

namespace MeadowPlanner

/-- C4: `parse_plan` raises the plan-not-found error for every input with
no `<steps>` opening tag at all; and for every input whose envelope is
extracted but rejected by the XML parser (`fs env = none`, the
`ET.ParseError` case), the failure is only logged and the empty plan is
returned instead of raising. -/
theorem c4_parse_plan_failure_modes :
    ∀ (fs : Str → Option XElem) (message env : Str),
      (containsSub message (toL "<steps>") = false →
        parse_plan fs message = .error .planNotFound) ∧
      (extractEnvelope message = some env → fs env = none →
        parse_plan fs message = .ok []) := by
  intro fs message env
  constructor
  · intro h
    rw [parse_plan, h]
    simp
  · intro hex hfs
    rw [parse_plan, containsSub_of_extract hex]
    simp [hex, hfs]

/-- C4 witness: `"hello"` has no envelope tag and raises; a present
envelope whose content the XML parser rejects yields the empty plan. -/
theorem c4_witness :
    parse_plan (fun _ => none) (toL "hello") = .error .planNotFound ∧
    parse_plan (fun _ => none) (toL "<steps>x</steps>") = .ok [] :=
  ⟨(c4_parse_plan_failure_modes (fun _ => none) (toL "hello") []).1 (by decide),
   (c4_parse_plan_failure_modes (fun _ => none) (toL "<steps>x</steps>")
      (toL "<steps>x</steps>")).2 (by decide) rfl⟩

/-- C10: on input containing the `<steps>` opening tag but no `</steps>`
completing an envelope after it, `parse_plan` hits a third failure mode —
`re.search` returns `None` and `.group(1)` raises `AttributeError` — which
is neither the documented plan-not-found error nor an empty plan. -/
theorem c10_null_match_failure :
    ∀ (fs : Str → Option XElem) (message : Str) (i : Nat),
      firstIndexOfSub message (toL "<steps>") = some i →
      containsSub ((message.drop i).drop 7) (toL "</steps>") = false →
      parse_plan fs message = .error .noneGroup ∧
      PlanErr.noneGroup ≠ PlanErr.planNotFound ∧
      ∀ l : List SubTask,
        (Except.error PlanErr.noneGroup : Except PlanErr (List SubTask)) ≠ .ok l := by
  intro fs message i hfirst hnoclose
  have hcontains : containsSub message (toL "<steps>") = true := by
    rw [containsSub, hfirst]; rfl
  have hext : extractEnvelope message = none := by
    rw [extractEnvelope, hfirst]
    have hfilter :
        ((List.range ((message.drop i).length + 1)).filter
          (fun j => 7 ≤ j && subAt (message.drop i) (toL "</steps>") j)) = [] := by
      apply List.filter_eq_nil_iff.mpr
      intro j _
      by_cases h7 : 7 ≤ j
      · have hnone : firstIndexOfSub ((message.drop i).drop 7) (toL "</steps>") = none := by
          cases hc : firstIndexOfSub ((message.drop i).drop 7) (toL "</steps>") with
          | none => rfl
          | some k => rw [containsSub, hc] at hnoclose; simp at hnoclose
        have hpref := firstIndexOfSub_none_all hnone (j - 7)
        rw [List.drop_drop] at hpref
        have hj7 : 7 + (j - 7) = j := by omega
        rw [hj7] at hpref
        intro hcj
        rw [Bool.and_eq_true, subAt, hpref] at hcj
        exact absurd hcj.2 (by simp)
      · simp [h7]
    dsimp only
    rw [hfilter]
    rfl
  refine ⟨?_, by simp, by simp⟩
  rw [parse_plan, hcontains]
  simp [hext]

/-- C10 witness: `"<steps>abc"` opens an envelope that never closes. -/
theorem c10_witness :
    parse_plan (fun _ => none) (toL "<steps>abc") = .error .noneGroup :=
  (c10_null_match_failure (fun _ => none) (toL "<steps>abc") 0 (by decide)
    (by decide)).1

end MeadowPlanner

/-! ## C3: well-formed envelope parsing -/

namespace MeadowPlanner

/-- The claim's per-step agent field: the `agent` element's text, or the
sentinel `"Unknown"` when the element is absent. -/
def agentFieldSpec (step : XElem) : Str :=
  match findChild step (toL "agent") with
  | some el => el.text.getD []
  | none => toL "Unknown"

/-- The claim's per-step instruction field: the `instruction` element's
text trimmed, or the sentinel `"No instruction"` when the element is
absent. -/
def instrFieldSpec (step : XElem) : Str :=
  match findChild step (toL "instruction") with
  | some el => stripL (el.text.getD [])
  | none => toL "No instruction"

/-- Both sub-elements of a step, when present, carry a text node (rules
out ET's `text = None` on empty elements, on which the source crashes). -/
def stepTextOk (step : XElem) : Bool :=
  (match findChild step (toL "agent") with
    | some el => el.text.isSome
    | none => true) &&
  (match findChild step (toL "instruction") with
    | some el => el.text.isSome
    | none => true)

/-- The claim's expected plan: one sub-task per step child in document
order, indexed consecutively from `n`. -/
def specSteps : Nat → List XElem → List SubTask
  | _, [] => []
  | n, step :: rest =>
    ⟨n, agentFieldSpec step, instrFieldSpec step⟩ :: specSteps (n + 1) rest

theorem specSteps_length : ∀ (cs : List XElem) (n : Nat),
    (specSteps n cs).length = cs.length := by
  intro cs
  induction cs with
  | nil => intro n; rfl
  | cons c t ih => intro n; simp [specSteps, ih]

theorem specSteps_get : ∀ (cs : List XElem) (n j : Nat),
    (specSteps n cs).get? j =
      (cs.get? j).map (fun step =>
        ⟨n + j, agentFieldSpec step, instrFieldSpec step⟩) := by
  intro cs
  induction cs with
  | nil => intro n j; cases j <;> rfl
  | cons c t ih =>
    intro n j
    cases j with
    | zero => simp [specSteps]
    | succ j' =>
      simp only [specSteps, List.get?_cons_succ, ih (n + 1) j']
      have : n + 1 + j' = n + (j' + 1) := by omega
      rw [this]

theorem stepsOf_ok {cs : List XElem}
    (hok : ∀ step ∈ cs, stepTextOk step = true) :
    ∀ acc : List SubTask, stepsOf cs acc = .ok (acc ++ specSteps acc.length cs) := by
  induction cs with
  | nil => intro acc; simp [stepsOf, specSteps]
  | cons step rest ih =>
    intro acc
    have hstep := hok step (List.mem_cons_self step rest)
    rw [stepTextOk, Bool.and_eq_true] at hstep
    rw [stepsOf]
    have hagent : stepAgent step = .ok (agentFieldSpec step) := by
      have h1 := hstep.1
      rw [stepAgent, agentFieldSpec]
      cases hf : findChild step (toL "agent") with
      | none => rfl
      | some el =>
        rw [hf] at h1
        dsimp only at h1 ⊢
        cases ht : el.text with
        | none => rw [ht] at h1; simp at h1
        | some a => rfl
    have hinstr : stepInstruction step = .ok (instrFieldSpec step) := by
      have h2 := hstep.2
      rw [stepInstruction, instrFieldSpec]
      cases hf : findChild step (toL "instruction") with
      | none => rfl
      | some el =>
        rw [hf] at h2
        dsimp only at h2 ⊢
        cases ht : el.text with
        | none => rw [ht] at h2; simp at h2
        | some a => rfl
    rw [hagent, hinstr]
    dsimp only
    have hrest : ∀ s ∈ rest, stepTextOk s = true := by
      intro s hs; exact hok s (List.mem_cons_of_mem _ hs)
    rw [ih hrest]
    simp only [List.length_append, List.length_cons, List.length_nil]
    rw [List.append_assoc]
    simp [specSteps]

/-- C3: for every input whose extracted envelope parses to a root with `k`
step children (each present sub-element carrying text), `parse_plan`
returns exactly `k` sub-tasks in document order; sub-task `j` has index
`j`, agent the `agent` element's text (sentinel `"Unknown"` when absent)
and prompt the `instruction` element's text trimmed (sentinel
`"No instruction"` when absent). -/
theorem c3_parse_plan_wellformed :
    ∀ (fs : Str → Option XElem) (message env : Str) (root : XElem),
      extractEnvelope message = some env →
      fs env = some root →
      (∀ step ∈ root.children, stepTextOk step = true) →
      parse_plan fs message = .ok (specSteps 0 root.children) ∧
      (specSteps 0 root.children).length = root.children.length ∧
      ∀ j, j < root.children.length →
        (specSteps 0 root.children).get? j =
          (root.children.get? j).map (fun step =>
            ⟨j, agentFieldSpec step, instrFieldSpec step⟩) := by
  intro fs message env root hext hfs hok
  refine ⟨?_, specSteps_length _ _, ?_⟩
  · rw [parse_plan, containsSub_of_extract hext]
    simp only [Bool.true_eq_false, if_false, hext, hfs]
    have := stepsOf_ok hok ([] : List SubTask)
    simpa using this
  · intro j _
    have := specSteps_get root.children 0 j
    simpa using this

/-- C3 witness: a two-step envelope, the second step exercising both
absent-element sentinels. -/
theorem c3_witness :
    parse_plan
      (fun _ => some ⟨toL "steps", none,
        [⟨toL "step1", none,
          [⟨toL "agent", some (toL "SQLGenerator"), []⟩,
           ⟨toL "instruction", some (toL " Get all users "), []⟩]⟩,
         ⟨toL "step2", none, []⟩]⟩)
      (toL "<steps>ignored</steps>") =
      .ok [⟨0, toL "SQLGenerator", toL "Get all users"⟩,
           ⟨1, toL "Unknown", toL "No instruction"⟩] := by
  have h := (c3_parse_plan_wellformed
    (fun _ => some ⟨toL "steps", none,
      [⟨toL "step1", none,
        [⟨toL "agent", some (toL "SQLGenerator"), []⟩,
         ⟨toL "instruction", some (toL " Get all users "), []⟩]⟩,
       ⟨toL "step2", none, []⟩]⟩)
    (toL "<steps>ignored</steps>") (toL "<steps>ignored</steps>")
    ⟨toL "steps", none,
      [⟨toL "step1", none,
        [⟨toL "agent", some (toL "SQLGenerator"), []⟩,
         ⟨toL "instruction", some (toL " Get all users "), []⟩]⟩,
       ⟨toL "step2", none, []⟩]⟩
    (by decide) rfl (by decide)).1
  rw [h]
  exact congrArg Except.ok (by decide)

end MeadowPlanner

/-! ## C2 and C1: the planner cursor -/

namespace MeadowPlanner

/-- Every call to `move_to_next_agent` leaves the state with the cursor
incremented by one (the increment precedes the bound check and the
lookups, so it happens on failing calls too) and the plan unchanged. -/
theorem move_to_next_agent_state (agents : List (Str × Agent))
    (st : PlannerState) :
    (move_to_next_agent agents st).1 =
      { st with planIndex := st.planIndex + 1 } := by
  rw [move_to_next_agent]
  split
  · rfl
  · split
    · rfl
    · split <;> rfl

/-- On a state whose cursor points just before position `k` of the plan,
a call returns position `k`'s sub-task with its agent resolved. -/
theorem move_to_next_agent_hit (agents : List (Str × Agent))
    (plan : List SubTask) (k : Nat) (hk : k < plan.length)
    (sub : SubTask) (hsub : plan.get? k = some sub)
    (a : Agent) (ha : lookupA agents sub.agent = some a) :
    (move_to_next_agent agents ⟨plan, (k : Int) - 1⟩).2 = .ok (a, sub.prompt) := by
  rw [move_to_next_agent]
  dsimp only
  have hidx : ((k : Int) - 1 + 1) = (k : Int) := by ring
  rw [hidx]
  rw [if_neg (by exact_mod_cast Nat.not_le.mpr hk)]
  have hget : pyGet plan (k : Int) = some sub := by
    rw [pyGet, if_pos (by positivity)]
    rw [Int.toNat_natCast]
    exact hsub
  rw [hget]
  dsimp only
  rw [ha]

/-- On a state whose cursor is at or past the last position, a call fails
with the exhausted-plan error. -/
theorem move_to_next_agent_exhausted (agents : List (Str × Agent))
    (plan : List SubTask) (idx : Int)
    (h : (plan.length : Int) ≤ idx + 1) :
    (move_to_next_agent agents ⟨plan, idx⟩).2 = .error .noMoreAgents := by
  rw [move_to_next_agent]
  dsimp only
  rw [if_pos h]

/-- The state after `n` successive calls to `move_to_next_agent`. -/
def callN (agents : List (Str × Agent)) : Nat → PlannerState → PlannerState
  | 0, st => st
  | n + 1, st => callN agents n (move_to_next_agent agents st).1

theorem callN_state (agents : List (Str × Agent)) :
    ∀ (n : Nat) (st : PlannerState),
      callN agents n st = { st with planIndex := st.planIndex + n } := by
  intro n
  induction n with
  | zero => intro st; cases st; simp [callN]
  | succ n' ih =>
    intro st
    rw [callN, move_to_next_agent_state, ih]
    cases st
    simp only [PlannerState.mk.injEq, and_true, true_and]
    push_cast
    ring

/-- C2: starting from a freshly built plan (cursor at `-1`), each call
increments the cursor first (after `i` calls the cursor is `i - 1`); the
`i`-th call (1-based, `i ≤ k` for a plan of length `k`) returns the
sub-task at position `i - 1` with its agent resolved by name lookup, and
every later call (`i > k`) raises the exhausted-plan error instead of
returning. -/
theorem c2_planner_cursor :
    ∀ (agents : List (Str × Agent)) (plan : List SubTask) (i : Nat),
      1 ≤ i →
      ((∀ s ∈ plan, (lookupA agents s.agent).isSome = true) →
        i ≤ plan.length →
        ∃ sub a, plan.get? (i - 1) = some sub ∧
          lookupA agents sub.agent = some a ∧
          (move_to_next_agent agents
            (callN agents (i - 1) ⟨plan, -1⟩)).2 = .ok (a, sub.prompt)) ∧
      (plan.length < i →
        (move_to_next_agent agents
          (callN agents (i - 1) ⟨plan, -1⟩)).2 = .error .noMoreAgents) ∧
      (callN agents i ⟨plan, -1⟩).planIndex = (i : Int) - 1 := by
  intro agents plan i hi
  have hstate :
      callN agents (i - 1) ⟨plan, -1⟩ =
        ⟨plan, ((i - 1 : Nat) : Int) - 1 + 0⟩ := by
    rw [callN_state]
    simp only [PlannerState.mk.injEq, true_and]
    omega
  refine ⟨?_, ?_, ?_⟩
  · intro hres hik
    have hlt : i - 1 < plan.length := by omega
    obtain ⟨sub, hsub⟩ : ∃ sub, plan.get? (i - 1) = some sub := by
      cases hg : plan.get? (i - 1) with
      | none => exact absurd (List.get?_eq_none.mp hg) (by omega)
      | some s => exact ⟨s, rfl⟩
    have hmem : sub ∈ plan := List.get?_mem hsub
    obtain ⟨a, ha⟩ : ∃ a, lookupA agents sub.agent = some a := by
      cases hl : lookupA agents sub.agent with
      | none =>
        have hcontra := hres sub hmem
        rw [hl] at hcontra
        simp at hcontra
      | some a => exact ⟨a, rfl⟩
    refine ⟨sub, a, hsub, ha, ?_⟩
    rw [hstate]
    have : (((i - 1 : Nat) : Int) - 1 + 0) = ((i - 1 : Nat) : Int) - 1 := by ring
    rw [this]
    exact move_to_next_agent_hit agents plan (i - 1) hlt sub hsub a ha
  · intro hik
    rw [hstate]
    exact move_to_next_agent_exhausted agents plan _ (by push_cast; omega)
  · rw [callN_state]
    dsimp only
    omega

end MeadowPlanner

namespace MeadowPlanner

/-- A concrete agent used by the planner-cursor witnesses. -/
def agentA : Agent := ⟨toL "A", none⟩

/-- A concrete available-agents mapping. -/
def agentsW : List (Str × Agent) := [(toL "A", agentA)]

/-- A concrete two-step plan. -/
def planW : List SubTask :=
  [⟨0, toL "A", toL "p0"⟩, ⟨1, toL "A", toL "p1"⟩]

/-- C2 witness: on the two-step plan, the first call yields position 0 and
the third call fails with the exhausted-plan error. -/
theorem c2_witness :
    (∃ sub a, planW.get? 0 = some sub ∧
      lookupA agentsW sub.agent = some a ∧
      (move_to_next_agent agentsW
        (callN agentsW 0 ⟨planW, -1⟩)).2 = .ok (a, sub.prompt)) ∧
    (move_to_next_agent agentsW
      (callN agentsW 2 ⟨planW, -1⟩)).2 = .error .noMoreAgents :=
  ⟨(c2_planner_cursor agentsW planW 1 (by decide)).1 (by decide) (by decide),
   (c2_planner_cursor agentsW planW 3 (by decide)).2.1 (by decide)⟩

/-- A step element with agent `A` and the given instruction. -/
def stepCex (p : String) : XElem :=
  ⟨toL "step", none,
    [⟨toL "agent", some (toL "A"), []⟩,
     ⟨toL "instruction", some (toL p), []⟩]⟩

/-- A modelled XML parser that yields a two-step plan for any envelope. -/
def fsCex : Str → Option XElem :=
  fun _ => some ⟨toL "steps", none, [stepCex "p0", stepCex "p1"]⟩

/-- C1, counterexample to the claim as stated: after a sub-task was already
consumed (prior cursor value `0`), a re-plan via `generate_reply` replaces
the plan but leaves the cursor at `0`, so the next `move_to_next_agent`
returns the new plan's sub-task at position 1 (prompt `"p1"`), not the
sub-task at position 0 (prompt `"p0"`) that the claim predicts. -/
theorem c1_counterexample :
    (generate_reply fsCex (toL "<exit>") (toL "<steps>x</steps>")
        ⟨[⟨0, toL "A", toL "q0"⟩], 0⟩).1 =
      { plan := planW, planIndex := 0 } ∧
    (move_to_next_agent agentsW
      (generate_reply fsCex (toL "<exit>") (toL "<steps>x</steps>")
        ⟨[⟨0, toL "A", toL "q0"⟩], 0⟩).1).2 = .ok (agentA, toL "p1") ∧
    planW.get? 0 = some ⟨0, toL "A", toL "p0"⟩ ∧
    toL "p1" ≠ toL "p0" :=
  ⟨rfl, rfl, by decide, by decide⟩

/-- C1, amended: on non-terminal backend output that parses, the parsed
plan replaces the current plan but the cursor is NOT reset — it keeps its
prior value, so the next `move_to_next_agent` after a re-plan returns the
sub-task at position `prior + 1` of the new plan (when that position
exists), not position 0. -/
theorem c1_replan_keeps_cursor :
    ∀ (fs : Str → Option XElem) (term content : Str) (st : PlannerState)
      (p : List SubTask),
      has_termination_condition content term = false →
      parse_plan fs content = .ok p →
      (generate_reply fs term content st).1 =
        { plan := p, planIndex := st.planIndex } ∧
      (∀ (agents : List (Str × Agent)) (k : Nat) (sub : SubTask) (a : Agent),
        st.planIndex = (k : Int) - 1 →
        k < p.length →
        p.get? k = some sub →
        lookupA agents sub.agent = some a →
        (move_to_next_agent agents (generate_reply fs term content st).1).2 =
          .ok (a, sub.prompt)) := by
  intro fs term content st p hterm hparse
  have hgen : (generate_reply fs term content st).1 =
      { plan := p, planIndex := st.planIndex } := by
    rw [generate_reply, hterm]
    simp only [Bool.false_eq_true, if_false, hparse]
  refine ⟨hgen, ?_⟩
  intro agents k sub a hk hlt hsub ha
  rw [hgen, hk]
  exact move_to_next_agent_hit agents p k hlt sub hsub a ha

/-- C1 witness: the amended behaviour at the counterexample's inputs. -/
theorem c1_witness :
    (generate_reply fsCex (toL "<exit>") (toL "<steps>x</steps>")
        ⟨[⟨0, toL "A", toL "q0"⟩], 0⟩).1 =
      { plan := planW, planIndex := 0 } ∧
    (move_to_next_agent agentsW
      (generate_reply fsCex (toL "<exit>") (toL "<steps>x</steps>")
        ⟨[⟨0, toL "A", toL "q0"⟩], 0⟩).1).2 = .ok (agentA, toL "p1") := by
  have h := c1_replan_keeps_cursor fsCex (toL "<exit>") (toL "<steps>x</steps>")
    ⟨[⟨0, toL "A", toL "q0"⟩], 0⟩ planW (by decide) (by rfl)
  exact ⟨h.1, h.2 agentsW 1 ⟨1, toL "A", toL "p1"⟩ agentA (by decide) (by decide)
    (by decide) (by decide)⟩

end MeadowPlanner

/-! ## C8: the decomposer queue pop and its reset side effect -/

namespace MeadowDecomposer

theorem foldl_reset (l : List Nat) (f : Nat → Nat) (i : Nat) :
    (l.foldl (fun g j => MeadowAgent.reset_execution_attempts g j) f) i =
      if i ∈ l then 0 else f i := by
  induction l generalizing f with
  | nil => simp
  | cons a t ih =>
    rw [List.foldl_cons, ih]
    by_cases hm : i ∈ t
    · simp [hm]
    · by_cases ha : i = a
      · simp [hm, ha, MeadowAgent.reset_execution_attempts]
      · simp [hm, ha, MeadowAgent.reset_execution_attempts]

/-- C8: on an empty queue `move_to_next_agent` returns the no-task result
with the state untouched; on a non-empty queue it pops the front sub-task
and resets exactly the attempt counters of that sub-task's agent's
executors (when the agent exposes any), leaving every other executor's
counter unchanged. -/
theorem c8_decomposer_move :
    ∀ st : DecompState,
      (st.plan = [] → move_to_next_agent st = (none, st)) ∧
      (∀ sub rest, st.plan = sub :: rest →
        (move_to_next_agent st).1 = some sub ∧
        (move_to_next_agent st).2.plan = rest ∧
        (∀ i exs, sub.agent.executors = some exs → i ∈ exs →
          (move_to_next_agent st).2.attempts i = 0) ∧
        (∀ i, (∀ exs, sub.agent.executors = some exs → i ∉ exs) →
          (move_to_next_agent st).2.attempts i = st.attempts i)) := by
  intro st
  constructor
  · intro h
    rw [move_to_next_agent, h]
  · intro sub rest h
    rw [move_to_next_agent, h]
    dsimp only
    refine ⟨rfl, rfl, ?_, ?_⟩
    · intro i exs hexs hi
      rw [hexs]
      dsimp only
      have hne : exs.isEmpty = false := by
        cases exs with
        | nil => simp at hi
        | cons e t => rfl
      rw [hne]
      simp only [Bool.false_eq_true, if_false]
      rw [foldl_reset]
      simp [hi]
    · intro i hnot
      cases hexs : sub.agent.executors with
      | none => rfl
      | some exs =>
        dsimp only
        cases hemp : exs.isEmpty with
        | true => rfl
        | false =>
          simp only [Bool.false_eq_true, if_false]
          rw [foldl_reset]
          simp [hnot exs hexs]

/-- A concrete executor-bearing agent for the C8 witness. -/
def agentEx : Agent := ⟨toL "SQLGenerator", some [0, 2]⟩

/-- C8 witness: popping the single queued sub-task resets executors 0 and
2 of its agent and leaves executor 1's counter at its old value. -/
theorem c8_witness :
    (move_to_next_agent ⟨[⟨agentEx, toL "q"⟩], fun _ => 7⟩).1 =
      some ⟨agentEx, toL "q"⟩ ∧
    (move_to_next_agent ⟨[⟨agentEx, toL "q"⟩], fun _ => 7⟩).2.plan = [] ∧
    (move_to_next_agent ⟨[⟨agentEx, toL "q"⟩], fun _ => 7⟩).2.attempts 0 = 0 ∧
    (move_to_next_agent ⟨[⟨agentEx, toL "q"⟩], fun _ => 7⟩).2.attempts 2 = 0 ∧
    (move_to_next_agent ⟨[⟨agentEx, toL "q"⟩], fun _ => 7⟩).2.attempts 1 = 7 := by
  have h := (c8_decomposer_move ⟨[⟨agentEx, toL "q"⟩], fun _ => 7⟩).2
    ⟨agentEx, toL "q"⟩ [] rfl
  exact ⟨h.1, h.2.1,
    h.2.2.1 0 [0, 2] rfl (by decide),
    h.2.2.1 2 [0, 2] rfl (by decide),
    h.2.2.2 1 (by intro exs hexs; injection hexs with he; rw [← he]; decide)⟩

end MeadowDecomposer

/-! ## C9 and C6: decomposer generate_reply -/

namespace MeadowDecomposer

/-- C9: with no language-model backend, more than one available agent is a
fatal configuration error raised before any state change; with exactly one
available agent, exactly one sub-task is enqueued, addressed to that agent
with the last received message's content verbatim as its prompt, and the
reply is a one-element structured acknowledgment serializing the agent
name and the instruction. -/
theorem c9_no_backend :
    ∀ (A : List (Str × Agent)) (last_message : Str) (st : DecompState),
      (1 < A.length →
        generate_reply_no_llm A last_message st =
          (st, .raised .valueErrMultiAgents)) ∧
      (∀ n a, A = [(n, a)] →
        (generate_reply_no_llm A last_message st).1.plan =
          st.plan ++ [⟨a, last_message⟩] ∧
        (generate_reply_no_llm A last_message st).1.attempts = st.attempts ∧
        (generate_reply_no_llm A last_message st).2 =
          .replied (toL "<steps><step1><agent>" ++ a.name ++
            toL "</agent><instruction>" ++ last_message ++
            toL "</instruction></step1></steps>")) := by
  intro A last_message st
  constructor
  · intro h
    rw [generate_reply_no_llm.eq_def, if_pos h]
  · intro n a hA
    subst hA
    rw [generate_reply_no_llm.eq_def, if_neg (by simp)]
    exact ⟨rfl, rfl, rfl⟩

/-- A concrete single available agent for the decomposer witnesses. -/
def agentSG : Agent := ⟨toL "SQLGenerator", none⟩

/-- A concrete empty decomposer state. -/
def dState0 : DecompState := ⟨[], fun _ => 0⟩

/-- C9 witness: one agent, one verbatim sub-task, serialized ack. -/
theorem c9_witness :
    (generate_reply_no_llm [(toL "SQLGenerator", agentSG)]
      (toL "get users") dState0).1.plan = [⟨agentSG, toL "get users"⟩] ∧
    (generate_reply_no_llm [(toL "SQLGenerator", agentSG)]
      (toL "get users") dState0).2 =
      .replied (toL "<steps><step1><agent>SQLGenerator</agent><instruction>get users</instruction></step1></steps>") := by
  have h := (c9_no_backend [(toL "SQLGenerator", agentSG)] (toL "get users")
    dState0).2 (toL "SQLGenerator") agentSG rfl
  refine ⟨?_, ?_⟩
  · rw [h.1]; rfl
  · rw [h.2.2]; decide

theorem parse_plan_agent_names {content : Str} {ps : List SubTaskForParse}
    (h : parse_plan content = .ok ps) :
    ∀ p ∈ ps, p.agent_name = toL "SQLGenerator" := by
  intro p hp
  rw [parse_plan] at h
  by_cases hc : containsSub content (toL "<instruction") = true
  · rw [if_pos hc] at h
    injection h with h'
    subst h'
    obtain ⟨i, _, hi⟩ := List.mem_map.mp hp
    rw [← hi]
  · rw [if_neg hc] at h
    cases hn : parse_steps_numbers content with
    | ok l =>
      rw [hn] at h
      injection h with h'
      subst h'
      obtain ⟨i, _, hi⟩ := List.mem_map.mp hp
      rw [← hi]
    | error e =>
      rw [hn] at h
      exact absurd h (by simp)

theorem putLoop_resolved (agentsMap : List (Str × Agent)) (a : Agent) :
    ∀ (ps : List SubTaskForParse) (plan : List MeadowAgent.SubTask),
      (∀ p ∈ ps, lookupA agentsMap p.agent_name = some a) →
      putLoop agentsMap ps plan =
        (plan ++ ps.map (fun p => ⟨a, p.prompt⟩), none) := by
  intro ps
  induction ps with
  | nil => intro plan _; simp [putLoop]
  | cons p t ih =>
    intro plan hres
    rw [putLoop, hres p (List.mem_cons_self p t)]
    dsimp only
    rw [ih _ (fun q hq => hres q (List.mem_cons_of_mem _ hq))]
    simp

/-- C6: in the backend-attached `generate_reply`, a decomposition that
parses to exactly one sub-task is enqueued with its prompt replaced by the
original last-message content; a decomposition of two or more sub-tasks is
enqueued with every parsed prompt unchanged. -/
theorem c6_single_step_collapse :
    ∀ (end_marker : Str) (agentsMap : List (Str × Agent))
      (content last_message : Str) (st : DecompState)
      (ps : List SubTaskForParse) (a : Agent),
      commandsHasEnd end_marker content = false →
      parse_plan content = .ok ps →
      lookupA agentsMap (toL "SQLGenerator") = some a →
      (∀ p, ps = [p] →
        generate_reply_llm end_marker agentsMap content last_message st =
          ({ st with plan := st.plan ++ [⟨a, last_message⟩] },
            .replied content)) ∧
      (2 ≤ ps.length →
        generate_reply_llm end_marker agentsMap content last_message st =
          ({ st with plan := st.plan ++ ps.map (fun p => ⟨a, p.prompt⟩) },
            .replied content)) := by
  intro end_marker agentsMap content last_message st ps a hterm hparse hlook
  have hnames := parse_plan_agent_names hparse
  constructor
  · intro p hp
    subst hp
    rw [generate_reply_llm, hterm]
    simp only [Bool.false_eq_true, if_false, hparse]
    have hname : p.agent_name = toL "SQLGenerator" :=
      hnames p (List.mem_cons_self p [])
    have hput := putLoop_resolved agentsMap a
      [⟨p.agent_name, last_message⟩] st.plan
      (by intro q hq
          rw [List.mem_singleton] at hq
          subst hq
          rw [hname]
          exact hlook)
    rw [hput]
    rfl
  · intro hlen
    match ps, hlen with
    | p :: q :: t, _ =>
      rw [generate_reply_llm, hterm]
      simp only [Bool.false_eq_true, if_false, hparse]
      have hput := putLoop_resolved agentsMap a (p :: q :: t) st.plan
        (by intro r hr
            rw [hnames r hr]
            exact hlook)
      rw [hput]

/-- C6 witness: a one-instruction decomposition gets the original request
as its prompt; a two-instruction decomposition keeps both parsed prompts. -/
theorem c6_witness :
    generate_reply_llm (toL "<end>") [(toL "SQLGenerator", agentSG)]
      (toL "<instruction1> merge </instruction1>")
      (toL "What is total revenue?") dState0 =
      ({ dState0 with
          plan := [⟨agentSG, toL "What is total revenue?"⟩] },
        .replied (toL "<instruction1> merge </instruction1>")) ∧
    generate_reply_llm (toL "<end>") [(toL "SQLGenerator", agentSG)]
      (toL "<instruction1>a</instruction1><instruction2>b</instruction2>")
      (toL "orig") dState0 =
      ({ dState0 with plan := [⟨agentSG, toL "a"⟩, ⟨agentSG, toL "b"⟩] },
        .replied (toL "<instruction1>a</instruction1><instruction2>b</instruction2>")) := by
  constructor
  · exact (c6_single_step_collapse (toL "<end>") [(toL "SQLGenerator", agentSG)]
      (toL "<instruction1> merge </instruction1>") (toL "What is total revenue?")
      dState0 [⟨toL "SQLGenerator", toL "merge"⟩] agentSG
      (by decide) rfl (by decide)).1 ⟨toL "SQLGenerator", toL "merge"⟩ rfl
  · exact (c6_single_step_collapse (toL "<end>") [(toL "SQLGenerator", agentSG)]
      (toL "<instruction1>a</instruction1><instruction2>b</instruction2>")
      (toL "orig") dState0
      [⟨toL "SQLGenerator", toL "a"⟩, ⟨toL "SQLGenerator", toL "b"⟩] agentSG
      (by decide) rfl (by decide)).2 (by decide)

end MeadowDecomposer

/-! ## C5: enumerated-list decomposition parsing -/

namespace MeadowDecomposer

/-- Fuel-indexed twin of `reSplitAux` (identical on sufficient fuel); used
to evaluate the splitter on closed inputs. -/
def reSplitF : Nat → Str → Str → List Str
  | 0, acc, _ => [acc.reverse]
  | fuel + 1, acc, l =>
    match l with
    | [] => [acc.reverse]
    | c :: rest =>
      match matchBoundary (c :: rest) with
      | some (sep, r) => acc.reverse :: sep :: reSplitF fuel [] r
      | none => reSplitF fuel (c :: acc) rest

theorem reSplitF_eq : ∀ (fuel : Nat) (acc l : Str), l.length ≤ fuel →
    reSplitF fuel acc l = reSplitAux acc l := by
  intro fuel
  induction fuel with
  | zero =>
    intro acc l h
    have hl : l = [] := List.eq_nil_of_length_eq_zero (Nat.le_zero.mp h)
    subst hl
    rw [reSplitAux]
    rfl
  | succ f ih =>
    intro acc l h
    cases l with
    | nil => rw [reSplitAux]; rfl
    | cons c rest =>
      rw [reSplitF, reSplitAux]
      cases hm : matchBoundary (c :: rest) with
      | some sr =>
        obtain ⟨sep, r⟩ := sr
        have hlen : r.length < (c :: rest).length := matchBoundary_some_len hm
        dsimp only
        rw [ih [] r (by simp only [List.length_cons] at hlen h; omega)]
      | none =>
        dsimp only
        exact ih (c :: acc) rest (by simpa using Nat.le_of_succ_le_succ h)

/-- The claim's reading of enumerated-list parsing, following the spec's
words (§4.3): the first item is located by the literal `1. ` marker,
items anywhere in the text are delimited by the boundary pattern "a line
break, then digits, a period, and whitespace", each item's text is trimmed
and stripped of emphasis markup, and items are re-emitted in ascending
order of their numeric markers regardless of the order they appear. -/
def claimLoop : List Str → Option Nat → List (Nat × Str) → List (Nat × Str)
  | [], _, ins => ins
  | piece :: rest, cur, ins =>
    let p := stripL piece
    let ds := p.takeWhile Char.isDigit
    if ds ≠ [] ∧ (p.dropWhile Char.isDigit).head? = some '.' then
      claimLoop rest (some (readNat ds)) ins
    else
      match cur with
      | none => claimLoop rest cur ins
      | some k => claimLoop rest cur (upsert ins k (removeStars (stripL p)))

/-- The claim-side parse: all items located over the whole input (text
before the first numbered boundary is not an item), sorted by numeric
marker. -/
def claimEnumeratedItems (input : Str) : Except NumErr (List Str) :=
  if containsSub input (toL "1. ") = false then .error .noStepsFound
  else
    let pieces := ((reSplitF (input.length + 1) [] ('\n' :: input)).map
      stripL).filter (fun p => !p.isEmpty)
    .ok (emitSorted (claimLoop pieces none []))

/-- C5, counterexample to the claim as stated: in `"2. bbb\n1. aaa"` the
items are `(1, "aaa")` and `(2, "bbb")`, so the claim predicts the sorted
result `["aaa", "bbb"]` regardless of the order the items appear; but the
code splits the text after the *first occurrence of the marker* `"1. "`,
discarding item 2 entirely and returning only `["aaa"]`. -/
theorem c5_counterexample :
    parse_steps_numbers (toL "2. bbb\n1. aaa") = .ok [toL "aaa"] ∧
    claimEnumeratedItems (toL "2. bbb\n1. aaa") =
      .ok [toL "aaa", toL "bbb"] ∧
    ¬ ([toL "aaa"] = [toL "aaa", toL "bbb"]) := by
  refine ⟨?_, by rfl, by decide⟩
  have hsp : reSplitAux []
      (toL "\n1. " ++ splitAfterFirst (toL "2. bbb\n1. aaa") (toL "1. ")) =
      [[], toL "\n1. ", toL "aaa"] := by
    rw [← reSplitF_eq 16 []
      (toL "\n1. " ++ splitAfterFirst (toL "2. bbb\n1. aaa") (toL "1. "))
      (by decide)]
    decide
  rw [parse_steps_numbers, if_neg (by decide)]
  dsimp only
  rw [hsp]
  rfl

theorem digitCharL_props : ∀ d : Nat, d < 10 →
    (digitCharL d).isDigit = true ∧ charVal (digitCharL d) = d ∧
      isPySpace (digitCharL d) = false := by decide

theorem natDigitsRevF_digits : ∀ (fuel : Nat), ∀ (n : Nat),
    ∀ c ∈ natDigitsRevF fuel n, c.isDigit = true := by
  intro fuel
  induction fuel with
  | zero => intro n c hc; simp [natDigitsRevF] at hc
  | succ f ih =>
    intro n c hc
    rw [natDigitsRevF] at hc
    by_cases hn : n = 0
    · simp [hn] at hc
    · rw [if_neg hn] at hc
      rcases List.mem_cons.mp hc with h1 | h2
      · subst h1
        exact (digitCharL_props (n % 10) (Nat.mod_lt _ (by omega))).1
      · exact ih (n / 10) c h2

theorem renderNat_digits : ∀ (n : Nat), ∀ c ∈ renderNat n, c.isDigit = true := by
  intro n c hc
  rw [renderNat] at hc
  by_cases hn : n = 0
  · rw [if_pos hn] at hc
    simp at hc
    subst hc
    decide
  · rw [if_neg hn] at hc
    exact natDigitsRevF_digits n n c (List.mem_reverse.mp hc)

theorem renderNat_ne_nil : ∀ n : Nat, renderNat n ≠ [] := by
  intro n
  rw [renderNat]
  by_cases hn : n = 0
  · simp [hn]
  · rw [if_neg hn]
    obtain ⟨f, hf⟩ : ∃ f, n = f + 1 := ⟨n - 1, by omega⟩
    rw [hf, natDigitsRevF, if_neg (by omega)]
    simp

theorem foldr_natDigitsRevF : ∀ (fuel n : Nat), n ≤ fuel →
    (natDigitsRevF fuel n).foldr (fun c a => a * 10 + charVal c) 0 = n := by
  intro fuel
  induction fuel with
  | zero =>
    intro n h
    have hn : n = 0 := by omega
    subst hn
    rfl
  | succ f ih =>
    intro n h
    rw [natDigitsRevF]
    by_cases hn : n = 0
    · rw [if_pos hn]
      simp [hn]
    · rw [if_neg hn]
      rw [List.foldr_cons]
      have hdiv : n / 10 ≤ f := by
        have := Nat.div_lt_self (by omega : 0 < n) (by omega : 1 < 10)
        omega
      rw [ih (n / 10) hdiv]
      rw [(digitCharL_props (n % 10) (Nat.mod_lt _ (by omega))).2.1]
      omega

theorem readNat_renderNat (n : Nat) : readNat (renderNat n) = n := by
  rw [renderNat]
  by_cases hn : n = 0
  · rw [if_pos hn]
    subst hn
    rfl
  · rw [if_neg hn, readNat, List.foldl_reverse]
    exact foldr_natDigitsRevF n n le_rfl

theorem isDigit_not_space (c : Char) (h : c.isDigit = true) :
    isPySpace c = false := by
  cases hsp : isPySpace c with
  | false => rfl
  | true =>
    exfalso
    rw [isPySpace] at hsp
    simp only [Bool.or_eq_true, decide_eq_true_eq] at hsp
    rcases hsp with ((((rfl | rfl) | rfl) | rfl) | rfl) | rfl <;>
      exact absurd h (by decide)

theorem dropWhile_head_false {p : Char → Bool} {c : Char} (xs : Str)
    (h : p c = false) : (c :: xs).dropWhile p = c :: xs := by
  simp [List.dropWhile, h]

theorem takeWhile_head_false {p : Char → Bool} {c : Char} (xs : Str)
    (h : p c = false) : (c :: xs).takeWhile p = [] := by
  simp [List.takeWhile, h]

theorem dropWhile_all_false {p : Char → Bool} :
    ∀ l : Str, (∀ c ∈ l, p c = false) → l.dropWhile p = l := by
  intro l h
  cases l with
  | nil => rfl
  | cons c t => exact dropWhile_head_false t (h c (List.mem_cons_self c t))

theorem dropWhile_append_last {p : Char → Bool} {c : Char} (h : p c = false) :
    ∀ xs : Str, (xs ++ [c]).dropWhile p = xs.dropWhile p ++ [c] := by
  intro xs
  induction xs with
  | nil => simp [List.dropWhile, h]
  | cons x t ih =>
    by_cases hx : p x
    · simp [List.dropWhile, hx, ih]
    · simp [List.dropWhile, hx]

theorem dropTrailing_cons {c : Char} (h : isPySpace c = false) (xs : Str) :
    dropTrailing (c :: xs) = c :: dropTrailing xs := by
  rw [dropTrailing, dropTrailing, List.reverse_cons, dropWhile_append_last h]
  simp

theorem dropWhile_head_prop {p : Char → Bool} :
    ∀ (l : Str) (c : Char) (t : Str), l.dropWhile p = c :: t → p c = false := by
  intro l
  induction l with
  | nil => intro c t h; simp at h
  | cons x xs ih =>
    intro c t h
    by_cases hx : p x
    · rw [List.dropWhile_cons_of_pos hx] at h
      exact ih c t h
    · rw [dropWhile_head_false xs (Bool.not_eq_true _ ▸ Bool.of_not_eq_true hx)] at h
      cases h
      exact Bool.not_eq_true _ ▸ Bool.of_not_eq_true hx

theorem dropWhile_idem {p : Char → Bool} (l : Str) :
    (l.dropWhile p).dropWhile p = l.dropWhile p := by
  cases h : l.dropWhile p with
  | nil => rfl
  | cons c t => exact dropWhile_head_false t (dropWhile_head_prop l c t h)

theorem dropTrailing_idem (l : Str) :
    dropTrailing (dropTrailing l) = dropTrailing l := by
  rw [dropTrailing, dropTrailing, List.reverse_reverse, dropWhile_idem]

theorem stripL_cons_nospace {c : Char} (h : isPySpace c = false) (xs : Str) :
    stripL (c :: xs) = c :: dropTrailing xs := by
  rw [stripL, dropLeading, dropWhile_head_false xs h, dropTrailing_cons h]

theorem stripL_all_nospace : ∀ l : Str, (∀ c ∈ l, isPySpace c = false) →
    stripL l = l := by
  intro l h
  rw [stripL, dropLeading, dropWhile_all_false l h, dropTrailing,
    dropWhile_all_false l.reverse (fun c hc => h c (List.mem_reverse.mp hc)),
    List.reverse_reverse]

theorem stripL_stripL_cons {c : Char} (h : isPySpace c = false) (xs : Str) :
    stripL (stripL (c :: xs)) = stripL (c :: xs) := by
  rw [stripL_cons_nospace h, stripL_cons_nospace h, dropTrailing_idem]

theorem takeWhile_append_stop {p : Char → Bool} :
    ∀ (a : Str), (∀ x ∈ a, p x = true) → ∀ (c : Char), p c = false →
      ∀ b : Str, (a ++ c :: b).takeWhile p = a ∧
        (a ++ c :: b).dropWhile p = c :: b := by
  intro a
  induction a with
  | nil =>
    intro _ c hc b
    exact ⟨takeWhile_head_false b hc, dropWhile_head_false b hc⟩
  | cons x t ih =>
    intro ha c hc b
    have hx : p x = true := ha x (List.mem_cons_self x t)
    have iht := ih (fun y hy => ha y (List.mem_cons_of_mem _ hy)) c hc b
    constructor
    · rw [List.cons_append, List.takeWhile_cons_of_pos hx, iht.1]
    · rw [List.cons_append, List.dropWhile_cons_of_pos hx, iht.2]

theorem stripL_sep (k : Nat) :
    stripL ('\n' :: (renderNat k ++ '.' :: [' '])) = renderNat k ++ ['.'] := by
  obtain ⟨c, cs, hcs⟩ : ∃ c cs, renderNat k = c :: cs := by
    cases h : renderNat k with
    | nil => exact absurd h (renderNat_ne_nil k)
    | cons c cs => exact ⟨c, cs, rfl⟩
  have hcns : isPySpace c = false :=
    isDigit_not_space c (renderNat_digits k c (by rw [hcs]; exact List.mem_cons_self c cs))
  rw [hcs, List.cons_append]
  have h1 : stripL ('\n' :: c :: (cs ++ '.' :: [' '])) =
      dropTrailing (c :: (cs ++ '.' :: [' '])) := by
    rw [stripL, dropLeading, List.dropWhile_cons_of_pos (by decide),
      dropWhile_head_false _ hcns]
  rw [h1, dropTrailing_cons hcns]
  have h2 : dropTrailing (cs ++ '.' :: [' ']) = cs ++ ['.'] := by
    rw [dropTrailing]
    have hrev : (cs ++ '.' :: [' ']).reverse = ' ' :: '.' :: cs.reverse := by simp
    rw [hrev, List.dropWhile_cons_of_pos (by decide),
      dropWhile_head_false _ (by decide)]
    simp
  rw [h2]
  simp

theorem matchBoundary_not_nl {c : Char} (l : Str) (h : ¬ c = '\n') :
    matchBoundary (c :: l) = none := by
  rw [matchBoundary, if_neg h]

theorem matchBoundary_chunk (k : Nat) (c : Char) (t' : Str)
    (hc : isPySpace c = false) :
    matchBoundary ('\n' :: (renderNat k ++ '.' :: ' ' :: c :: t')) =
      some ('\n' :: (renderNat k ++ '.' :: [' ']), c :: t') := by
  rw [matchBoundary, if_pos rfl]
  have hTD := takeWhile_append_stop (renderNat k) (renderNat_digits k) '.'
    (by decide) (' ' :: c :: t')
  rw [hTD.1, hTD.2]
  rw [if_neg (by simpa using renderNat_ne_nil k)]
  dsimp only
  rw [if_pos rfl]
  rw [List.takeWhile_cons_of_pos (by decide), takeWhile_head_false _ hc,
    List.dropWhile_cons_of_pos (by decide), dropWhile_head_false _ hc]
  rw [if_neg (by simp)]

theorem reSplitAux_no_boundary :
    ∀ (t : Str), (∀ c ∈ t, ¬ c = '\n') → ∀ acc,
      reSplitAux acc t = [acc.reverse ++ t] := by
  intro t
  induction t with
  | nil => intro _ acc; rw [reSplitAux]; simp
  | cons c t' ih =>
    intro h acc
    rw [reSplitAux]
    cases hmb : matchBoundary (c :: t') with
    | some sr =>
      rw [matchBoundary_not_nl t' (h c (List.mem_cons_self c t'))] at hmb
      cases hmb
    | none =>
      dsimp only
      rw [ih (fun d hd => h d (List.mem_cons_of_mem _ hd)) (c :: acc)]
      simp

theorem reSplitAux_prefix_boundary :
    ∀ (t : Str), (∀ c ∈ t, ¬ c = '\n') →
      ∀ (rest sep r : Str), matchBoundary rest = some (sep, r) →
        ∀ acc, reSplitAux acc (t ++ rest) =
          (acc.reverse ++ t) :: sep :: reSplitAux [] r := by
  intro t
  induction t with
  | nil =>
    intro _ rest sep r hm acc
    cases rest with
    | nil => rw [matchBoundary] at hm; cases hm
    | cons x xs =>
      rw [List.nil_append, reSplitAux]
      cases hm2 : matchBoundary (x :: xs) with
      | some sr2 =>
        rw [hm] at hm2
        injection hm2 with h2
        subst h2
        dsimp only
        simp
      | none => rw [hm] at hm2; cases hm2
  | cons c t' ih =>
    intro h rest sep r hm acc
    rw [List.cons_append, reSplitAux]
    cases hmb : matchBoundary (c :: (t' ++ rest)) with
    | some sr =>
      rw [matchBoundary_not_nl _ (h c (List.mem_cons_self c t'))] at hmb
      cases hmb
    | none =>
      dsimp only
      rw [ih (fun d hd => h d (List.mem_cons_of_mem _ hd)) rest sep r hm (c :: acc)]
      simp

/-- Well-behaved item text for the amended-claim rendering: nonempty, not
starting with whitespace or a digit, and containing no line break. -/
def cleanText (t : Str) : Bool :=
  match t with
  | [] => false
  | c :: _ => !isPySpace c && !c.isDigit && !t.any (fun d => d = '\n')

theorem cleanText_parts {t : Str} (h : cleanText t = true) :
    ∃ c t', t = c :: t' ∧ isPySpace c = false ∧ c.isDigit = false ∧
      (∀ d ∈ t, ¬ d = '\n') := by
  cases t with
  | nil => exact absurd h (by rw [cleanText]; simp)
  | cons c t' =>
    rw [cleanText] at h
    simp only [Bool.and_eq_true, Bool.not_eq_true'] at h
    refine ⟨c, t', rfl, h.1.1, h.1.2, ?_⟩
    intro d hd
    have hany := h.2
    rw [List.any_eq_false] at hany
    have := hany d hd
    simpa using this

/-- One rendered enumerated item preceded by its line break:
`"\nk. text"`. -/
def itemChunk (kt : Nat × Str) : Str :=
  '\n' :: (renderNat kt.1 ++ '.' :: ' ' :: kt.2)

/-- Concatenation of line-break-prefixed rendered items. -/
def chunks : List (Nat × Str) → Str
  | [] => []
  | kt :: rest => itemChunk kt ++ chunks rest

/-- The rendered enumerated list: `"k1. t1\nk2. t2\n..."`. -/
def renderItems : List (Nat × Str) → Str
  | [] => []
  | kt :: rest => (renderNat kt.1 ++ '.' :: ' ' :: kt.2) ++ chunks rest

/-- Expected output of the separator split on a rendered tail. -/
def splitPieces : Str → List (Nat × Str) → List Str
  | t, [] => [t]
  | t, kt :: rest =>
    t :: ('\n' :: (renderNat kt.1 ++ '.' :: [' '])) :: splitPieces kt.2 rest

theorem reSplitAux_chunks :
    ∀ (rest : List (Nat × Str)) (t : Str), cleanText t = true →
      (∀ kt ∈ rest, cleanText kt.2 = true) →
      reSplitAux [] (t ++ chunks rest) = splitPieces t rest := by
  intro rest
  induction rest with
  | nil =>
    intro t ht _
    obtain ⟨c, t', hct, _, _, hnl⟩ := cleanText_parts ht
    rw [chunks, List.append_nil, splitPieces]
    rw [reSplitAux_no_boundary t hnl []]
    simp
  | cons kt r' ih =>
    intro t ht hr
    obtain ⟨c2, t2', h2, hsp2, _, _⟩ :=
      cleanText_parts (hr kt (List.mem_cons_self kt r'))
    obtain ⟨c, t', hct, _, _, hnl⟩ := cleanText_parts ht
    rw [chunks, splitPieces]
    have hmb : matchBoundary (itemChunk kt ++ chunks r') =
        some ('\n' :: (renderNat kt.1 ++ '.' :: [' ']), kt.2 ++ chunks r') := by
      rw [itemChunk, h2]
      have hshape :
          ('\n' :: (renderNat kt.1 ++ '.' :: ' ' :: (c2 :: t2'))) ++ chunks r' =
            '\n' :: (renderNat kt.1 ++ '.' :: ' ' :: c2 :: (t2' ++ chunks r')) := by
        simp
      rw [hshape, matchBoundary_chunk kt.1 c2 (t2' ++ chunks r') hsp2]
      simp
    rw [reSplitAux_prefix_boundary t hnl _ _ _ hmb []]
    rw [ih kt.2 (hr kt (List.mem_cons_self kt r'))
      (fun q hq => hr q (List.mem_cons_of_mem _ hq))]
    simp

/-- The stripped, nonempty pieces the loop sees for a rendered tail. -/
def pieceSeq : Str → List (Nat × Str) → List Str
  | t, [] => [stripL t]
  | t, kt :: r => stripL t :: (renderNat kt.1 ++ ['.']) :: pieceSeq kt.2 r

theorem stripL_clean_ne_nil {t : Str} (ht : cleanText t = true) :
    (stripL t).isEmpty = false := by
  obtain ⟨c, t', hct, hsp, _, _⟩ := cleanText_parts ht
  rw [hct, stripL_cons_nospace hsp]
  rfl

theorem pieces_of_splitPieces :
    ∀ (rest : List (Nat × Str)) (t : Str), cleanText t = true →
      (∀ kt ∈ rest, cleanText kt.2 = true) →
      ((splitPieces t rest).map stripL).filter (fun p => !p.isEmpty) =
        pieceSeq t rest := by
  intro rest
  induction rest with
  | nil =>
    intro t ht _
    rw [splitPieces, pieceSeq]
    simp only [List.map_cons, List.map_nil, List.filter]
    rw [stripL_clean_ne_nil ht]
    rfl
  | cons kt r' ih =>
    intro t ht hr
    rw [splitPieces, pieceSeq]
    simp only [List.map_cons, List.filter]
    rw [stripL_clean_ne_nil ht, stripL_sep kt.1]
    have hsepne : ((renderNat kt.1 ++ ['.']).isEmpty : Bool) = false := by
      cases h : renderNat kt.1 ++ ['.'] with
      | nil => exact absurd h (by simp)
      | cons x xs => rfl
    rw [hsepne]
    rw [ih kt.2 (hr kt (List.mem_cons_self kt r'))
      (fun q hq => hr q (List.mem_cons_of_mem _ hq))]
    rfl

/-- The value the loop records for one item text. -/
def cleanItem (t : Str) : Str := removeStars (stripL t)

/-- The instructions dict after recording every item in order. -/
def assembleIns : List (Nat × Str) → List (Nat × Str) → List (Nat × Str)
  | ins, [] => ins
  | ins, kt :: rest => assembleIns (upsert ins kt.1 (cleanItem kt.2)) rest

theorem stepsLoop_pieceSeq :
    ∀ (rest : List (Nat × Str)) (k : Nat) (t : Str) (cur : Option Nat)
      (ins : List (Nat × Str)),
      cleanText t = true → (∀ kt ∈ rest, cleanText kt.2 = true) →
      stepsLoop ((renderNat k ++ ['.']) :: pieceSeq t rest) cur ins =
        .ok (assembleIns ins ((k, t) :: rest)) := by
  intro rest
  induction rest with
  | nil =>
    intro k t cur ins ht _
    obtain ⟨c, t', hct, hsp, hdig, _⟩ := cleanText_parts ht
    rw [pieceSeq]
    rw [stepsLoop.eq_def]
    dsimp only
    have hnum : stripL (renderNat k ++ ['.']) = renderNat k ++ ['.'] := by
      apply stripL_all_nospace
      intro x hx
      rcases List.mem_append.mp hx with h1 | h1
      · exact isDigit_not_space x (renderNat_digits k x h1)
      · rw [List.mem_singleton] at h1
        subst h1
        decide
    rw [hnum]
    have hTD := takeWhile_append_stop (renderNat k) (renderNat_digits k) '.'
      (by decide) []
    rw [if_pos (by
      constructor
      · rw [hTD.1]; exact renderNat_ne_nil k
      · rw [hTD.2]; rfl)]
    rw [hTD.1, readNat_renderNat]
    rw [stepsLoop.eq_def]
    dsimp only
    rw [hct, stripL_stripL_cons hsp]
    rw [stripL_cons_nospace hsp]
    rw [if_neg (by
      intro hcontra
      have := hcontra.1
      rw [takeWhile_head_false _ hdig] at this
      exact this rfl)]
    rw [stepsLoop.eq_def]
    dsimp only
    rw [assembleIns, assembleIns]
    have hval : stripL (c :: dropTrailing t') = c :: dropTrailing t' := by
      rw [← stripL_cons_nospace hsp, stripL_stripL_cons hsp,
        stripL_cons_nospace hsp]
    rw [hval]
    rw [← stripL_cons_nospace hsp, ← hct]
    rfl
  | cons kt r' ih =>
    intro k t cur ins ht hr
    obtain ⟨c, t', hct, hsp, hdig, _⟩ := cleanText_parts ht
    rw [pieceSeq]
    rw [stepsLoop.eq_def]
    dsimp only
    have hnum : stripL (renderNat k ++ ['.']) = renderNat k ++ ['.'] := by
      apply stripL_all_nospace
      intro x hx
      rcases List.mem_append.mp hx with h1 | h1
      · exact isDigit_not_space x (renderNat_digits k x h1)
      · rw [List.mem_singleton] at h1
        subst h1
        decide
    rw [hnum]
    have hTD := takeWhile_append_stop (renderNat k) (renderNat_digits k) '.'
      (by decide) []
    rw [if_pos (by
      constructor
      · rw [hTD.1]; exact renderNat_ne_nil k
      · rw [hTD.2]; rfl)]
    rw [hTD.1, readNat_renderNat]
    rw [stepsLoop.eq_def]
    dsimp only
    rw [hct, stripL_stripL_cons hsp]
    rw [stripL_cons_nospace hsp]
    rw [if_neg (by
      intro hcontra
      have := hcontra.1
      rw [takeWhile_head_false _ hdig] at this
      exact this rfl)]
    rw [ih kt.1 kt.2 _ _ (hr kt (List.mem_cons_self kt r'))
      (fun q hq => hr q (List.mem_cons_of_mem _ hq))]
    rw [assembleIns]
    have hval : stripL (c :: dropTrailing t') = c :: dropTrailing t' := by
      rw [← stripL_cons_nospace hsp, stripL_stripL_cons hsp,
        stripL_cons_nospace hsp]
    rw [hval]
    rw [← stripL_cons_nospace hsp, ← hct]
    rfl

theorem upsert_absent : ∀ (ins : List (Nat × Str)) (k : Nat) (v : Str),
    k ∉ ins.map Prod.fst → upsert ins k v = ins ++ [(k, v)] := by
  intro ins
  induction ins with
  | nil => intro k v _; rfl
  | cons kv t ih =>
    intro k v h
    obtain ⟨k', v'⟩ := kv
    simp only [List.map_cons, List.mem_cons, not_or] at h
    rw [upsert, if_neg (fun hc => h.1 hc.symm), ih k v h.2]
    rfl

theorem assembleIns_nodup :
    ∀ (L : List (Nat × Str)) (ins : List (Nat × Str)),
      (ins.map Prod.fst ++ L.map Prod.fst).Nodup →
      assembleIns ins L =
        ins ++ L.map (fun kt => (kt.1, cleanItem kt.2)) := by
  intro L
  induction L with
  | nil => intro ins _; simp [assembleIns]
  | cons kt r ih =>
    intro ins h
    rw [assembleIns]
    have hk : kt.1 ∉ ins.map Prod.fst := by
      intro hc
      rw [List.nodup_append] at h
      exact h.2.2 hc (by simp)
    rw [upsert_absent ins kt.1 _ hk]
    rw [ih (ins ++ [(kt.1, cleanItem kt.2)]) (by
      simp only [List.map_append, List.map_cons, List.map_nil] at h ⊢
      simpa [List.append_assoc] using h)]
    simp

theorem orderedInsert_map_fst (a : Nat × Str) :
    ∀ l : List (Nat × Str),
      (List.orderedInsert (fun x y => x.1 ≤ y.1) a l).map Prod.fst =
        List.orderedInsert (fun x y : Nat => x ≤ y) a.1 (l.map Prod.fst) := by
  intro l
  induction l with
  | nil => rfl
  | cons b t ih =>
    simp only [List.orderedInsert, List.map_cons]
    by_cases hab : a.1 ≤ b.1
    · rw [if_pos hab, if_pos hab]
      simp
    · rw [if_neg hab, if_neg hab]
      simp only [List.map_cons, ih]

theorem insertionSort_map_fst :
    ∀ l : List (Nat × Str),
      (List.insertionSort (fun x y => x.1 ≤ y.1) l).map Prod.fst =
        List.insertionSort (fun x y : Nat => x ≤ y) (l.map Prod.fst) := by
  intro l
  induction l with
  | nil => rfl
  | cons b t ih =>
    simp only [List.insertionSort, List.map_cons]
    rw [orderedInsert_map_fst, ih]

theorem lookupD_mem_nodup :
    ∀ (ins : List (Nat × Str)) (k : Nat) (v : Str),
      (ins.map Prod.fst).Nodup → (k, v) ∈ ins → lookupD ins k = v := by
  intro ins
  induction ins with
  | nil => intro k v _ hm; simp at hm
  | cons kv t ih =>
    intro k v hnd hm
    obtain ⟨k', v'⟩ := kv
    rw [lookupD]
    rcases List.mem_cons.mp hm with h1 | h1
    · injection h1 with ha hb
      rw [if_pos ha.symm]
      exact hb.symm
    · have hk : ¬ k' = k := by
        intro hc
        subst hc
        rw [List.map_cons, List.nodup_cons] at hnd
        exact hnd.1 (List.mem_map.mpr ⟨(k', v), h1, rfl⟩)
      rw [if_neg hk]
      exact ih k v (by rw [List.map_cons, List.nodup_cons] at hnd; exact hnd.2) h1

theorem emitSorted_nodup (ins : List (Nat × Str))
    (h : (ins.map Prod.fst).Nodup) :
    emitSorted ins =
      (List.insertionSort (fun x y => x.1 ≤ y.1) ins).map Prod.snd := by
  rw [emitSorted, ← insertionSort_map_fst, List.map_map]
  apply List.map_congr_left
  intro kt hkt
  have hmem : kt ∈ ins :=
    (List.perm_insertionSort (fun x y => x.1 ≤ y.1) ins).mem_iff.mp hkt
  exact lookupD_mem_nodup ins kt.1 kt.2 h (by simpa using hmem)

theorem orderedInsert_map_clean (a : Nat × Str) :
    ∀ l : List (Nat × Str),
      (List.orderedInsert (fun x y => x.1 ≤ y.1) a l).map
          (fun kt => (kt.1, cleanItem kt.2)) =
        List.orderedInsert (fun x y => x.1 ≤ y.1) (a.1, cleanItem a.2)
          (l.map (fun kt => (kt.1, cleanItem kt.2))) := by
  intro l
  induction l with
  | nil => rfl
  | cons b t ih =>
    simp only [List.orderedInsert, List.map_cons]
    by_cases hab : a.1 ≤ b.1
    · rw [if_pos hab, if_pos hab]
      simp
    · rw [if_neg hab, if_neg hab]
      simp only [List.map_cons, ih]

theorem insertionSort_map_clean :
    ∀ l : List (Nat × Str),
      (List.insertionSort (fun x y => x.1 ≤ y.1) l).map
          (fun kt => (kt.1, cleanItem kt.2)) =
        List.insertionSort (fun x y => x.1 ≤ y.1)
          (l.map (fun kt => (kt.1, cleanItem kt.2))) := by
  intro l
  induction l with
  | nil => rfl
  | cons b t ih =>
    simp only [List.insertionSort, List.map_cons]
    rw [orderedInsert_map_clean, ih]

/-- C5, amended: enumerated-list parsing fails with the explicit
no-steps error exactly when the literal first-item marker `"1. "` is
absent; when the input is an enumerated list whose first rendered item is
item 1 (the code discards everything before the first occurrence of the
marker, which the counterexample exhibits), the remaining items are
returned sorted in ascending order of their numeric markers regardless of
the order they appear, each trimmed and with emphasis markup removed. -/
theorem c5_enumerated_order :
    (∀ input : Str, containsSub input (toL "1. ") = false →
      parse_steps_numbers input = .error .noStepsFound) ∧
    (∀ (t1 : Str) (rest : List (Nat × Str)),
      cleanText t1 = true →
      (∀ kt ∈ rest, cleanText kt.2 = true) →
      (((1, t1) :: rest).map Prod.fst).Nodup →
      parse_steps_numbers (renderItems ((1, t1) :: rest)) =
        .ok ((List.insertionSort (fun x y => x.1 ≤ y.1) ((1, t1) :: rest)).map
          (fun kt => removeStars (stripL kt.2)))) := by
  constructor
  · intro input h
    rw [parse_steps_numbers, if_pos h]
  · intro t1 rest hc1 hcr hnd
    have h1 : renderNat 1 = ['1'] := by decide
    have hrender : renderItems ((1, t1) :: rest) =
        '1' :: '.' :: ' ' :: (t1 ++ chunks rest) := by
      rw [renderItems]
      dsimp only
      rw [h1]
      simp
    have hpre : (toL "1. ").isPrefixOf (renderItems ((1, t1) :: rest)) = true := by
      rw [hrender]
      simp [List.isPrefixOf, toL]
    have hfirst : firstIndexOfSub (renderItems ((1, t1) :: rest)) (toL "1. ") =
        some 0 := firstIndexOfSub_of_isPrefixOf hpre
    have hcontains : containsSub (renderItems ((1, t1) :: rest)) (toL "1. ") =
        true := by
      rw [containsSub, hfirst]
      rfl
    rw [parse_steps_numbers, if_neg (by rw [hcontains]; simp)]
    dsimp only
    have hsplit : splitAfterFirst (renderItems ((1, t1) :: rest)) (toL "1. ") =
        t1 ++ chunks rest := by
      rw [splitAfterFirst, hfirst, hrender]
      rfl
    rw [hsplit]
    have htext : toL "\n1. " ++ (t1 ++ chunks rest) =
        itemChunk (1, t1) ++ chunks rest := by
      rw [itemChunk]
      dsimp only
      rw [h1]
      simp [toL]
    rw [htext]
    obtain ⟨c1, t1', hct1, hsp1, _, _⟩ := cleanText_parts hc1
    have hmb1 : matchBoundary (itemChunk (1, t1) ++ chunks rest) =
        some ('\n' :: (renderNat 1 ++ '.' :: [' ']), t1 ++ chunks rest) := by
      rw [itemChunk]
      dsimp only
      rw [hct1]
      have hshape :
          ('\n' :: (renderNat 1 ++ '.' :: ' ' :: (c1 :: t1'))) ++ chunks rest =
            '\n' :: (renderNat 1 ++ '.' :: ' ' :: c1 :: (t1' ++ chunks rest)) := by
        simp
      rw [hshape, matchBoundary_chunk 1 c1 (t1' ++ chunks rest) hsp1]
      simp
    have hsplit2 : reSplitAux [] (itemChunk (1, t1) ++ chunks rest) =
        ([] : Str) :: ('\n' :: (renderNat 1 ++ '.' :: [' '])) ::
          reSplitAux [] (t1 ++ chunks rest) := by
      have hb := reSplitAux_prefix_boundary [] (by simp) _ _ _ hmb1 []
      simpa using hb
    rw [hsplit2, reSplitAux_chunks rest t1 hc1 hcr]
    have hpieces :
        (((([] : Str) :: ('\n' :: (renderNat 1 ++ '.' :: [' '])) ::
            splitPieces t1 rest).map stripL).filter (fun p => !p.isEmpty)) =
          (renderNat 1 ++ ['.']) :: pieceSeq t1 rest := by
      simp only [List.map_cons]
      rw [List.filter_cons, show stripL ([] : Str) = [] from rfl]
      simp only [List.isEmpty_nil, Bool.not_true, Bool.false_eq_true, if_false]
      rw [List.filter_cons, stripL_sep 1]
      have hne : ((renderNat 1 ++ ['.']).isEmpty : Bool) = false := by
        rw [h1]
        rfl
      rw [hne]
      simp only [Bool.not_false, if_true]
      rw [pieces_of_splitPieces rest t1 hc1 hcr]
    rw [hpieces]
    rw [stepsLoop_pieceSeq rest 1 t1 none [] hc1 hcr]
    dsimp only
    rw [assembleIns_nodup ((1, t1) :: rest) [] (by simpa using hnd)]
    rw [List.nil_append]
    rw [emitSorted_nodup _ (by
      simp only [List.map_map]
      have hfst : (fun kt : Nat × Str => ((kt.1, cleanItem kt.2) : Nat × Str).1) =
          Prod.fst := by
        funext kt
        rfl
      rw [show (Prod.fst ∘ fun kt : Nat × Str => ((kt.1, cleanItem kt.2) : Nat × Str)) =
          (Prod.fst : Nat × Str → Nat) from funext (fun kt => rfl)]
      exact hnd)]
    rw [← insertionSort_map_clean, List.map_map]
    rfl

/-- C5 witness: the marker-absent error, and a three-item list given in
the order 1, 3, 2 re-emitted as 1, 2, 3. -/
theorem c5_witness :
    parse_steps_numbers (toL "no markers here") = .error .noStepsFound ∧
    parse_steps_numbers (toL "1. aaa\n3. ccc\n2. bbb") =
      .ok [toL "aaa", toL "bbb", toL "ccc"] := by
  constructor
  · exact c5_enumerated_order.1 (toL "no markers here") (by decide)
  · have h := c5_enumerated_order.2 (toL "aaa")
      [(3, toL "ccc"), (2, toL "bbb")] (by decide) (by decide) (by decide)
    have hr : renderItems [(1, toL "aaa"), (3, toL "ccc"), (2, toL "bbb")] =
        toL "1. aaa\n3. ccc\n2. bbb" := by decide
    rw [hr] at h
    rw [h]
    exact congrArg Except.ok (by decide)

end MeadowDecomposer
